import Mathlib

/-!
# Verification of `point_cloud_transformer.py`

Shallow embedding of the `Logic` class of `src/point_cloud_transformer.py`
(a Python 2 program).  Strings are modelled as `List Char`; an input file is
modelled as the list of lines that Python 2 binary-mode iteration yields
(each yielded line keeps its trailing `'\n'`; the last line may lack one;
no yielded line is empty).  Fallible code is modelled with `Option`:
`none` is a raised exception propagating out of the run.
-/

namespace PCT

/-- Python 2 `str.replace('\r\n', '')` as used on line 178 of the source:
a single left-to-right pass removing every non-overlapping occurrence of
the two-character pattern `"\r\n"`, with the scan resuming after each
removed occurrence. -/
def removeCRLF : List Char → List Char
  | [] => []
  | [c] => [c]
  | c₁ :: c₂ :: rest =>
    if c₁ = '\r' ∧ c₂ = '\n' then removeCRLF rest
    else c₁ :: removeCRLF (c₂ :: rest)

/-- Python `line.split(',')` (line 175 of the source): split at every
comma; `"".split(',')` is `[""]`. -/
def pySplitComma : List Char → List (List Char)
  | [] => [[]]
  | c :: cs =>
    if c = ',' then [] :: pySplitComma cs
    else
      match pySplitComma cs with
      | [] => [[c]]
      | p :: ps => (c :: p) :: ps

/-- Lines 175–178 of the source: `row = line.split(',')` followed by
`row[2] = row[2].replace('\r\n', '')`.  The indexing `row[2]` raises
`IndexError` when the row has fewer than 3 fields; that exception is the
`none` branch. -/
def cleanLine (line : List Char) : Option (List (List Char)) :=
  let row := pySplitComma line
  if h : 2 < row.length then some (row.set 2 (removeCRLF (row.get ⟨2, h⟩)))
  else none

/-- `Logic._clean_cloud` (lines 169–180 of the source): iterate over the
lines of the file; a line whose first character is `'#'` is skipped; any
other line is split, has its third field cleaned, and is appended to the
container.  `line[0]` on an empty line, and `row[2]` on a short row, raise
`IndexError` (`none`). -/
def cleanCloud : List (List Char) → Option (List (List (List Char)))
  | [] => some []
  | line :: rest =>
    match line with
    | [] => none
    | c :: _ =>
      if c = '#' then cleanCloud rest
      else
        match cleanLine line, cleanCloud rest with
        | some row, some rows => some (row :: rows)
        | _, _ => none

/-- Python 2 iteration over a file opened in `'rb'` mode: the content is
split after every `'\n'` (the terminator stays with its line); a final
fragment without a terminator is yielded as-is; the empty file yields no
lines. -/
def pyLines : List Char → List (List Char)
  | [] => []
  | c :: cs =>
    if c = '\n' then ['\n'] :: pyLines cs
    else
      match pyLines cs with
      | [] => [[c]]
      | l :: ls => (c :: l) :: ls

/-- Python 2 built-in `round`, modelled over `ℚ`: round half away from
zero.  `pandas` computes the sample size as `int(round(frac * N))`. -/
def pyRound (q : ℚ) : ℤ := if 0 ≤ q then ⌊q + 1/2⌋ else ⌈q - 1/2⌉

/-- Number of rows drawn by `DataFrame.sample(frac=f)` on an `n`-row
frame: `int(round(f * n))`. -/
def pandasSampleCount (f : ℚ) (n : ℕ) : ℕ := (pyRound (f * n)).toNat

/-- Modelled behaviour of `df.sample(frac=subsample, random_state=...)`
on line 150 of the source: draw `int(round(frac * N))` rows uniformly
without replacement.  The randomness is abstracted as `perm`, the order
in which the RNG would enumerate the row indices; sampling keeps the
first `pandasSampleCount f N` of them.  Theorems hypothesise that `perm`
is a permutation of `List.range data.length`. -/
def pandasSample {α : Type} (data : List α) (f : ℚ) (perm : List ℕ) : List α :=
  (perm.take (pandasSampleCount f data.length)).filterMap fun i => data.get? i

/-- `Logic.validate_subsample` (lines 96–117 of the source): `float(x)`
raising `ValueError` returns `None`; a parsed value is returned exactly
when `0.0 < x <= 1.0`, and `None` (the implicit fall-through) otherwise.
The Python `float` parser is abstracted as `parse`; its numeric values
are modelled in `ℚ`. -/
def validate_subsample (parse : List Char → Option ℚ) (x : List Char) : Option ℚ :=
  match parse x with
  | none => none
  | some v => if 0 < v ∧ v ≤ 1 then some v else none

/-- `str.rstrip('/')` on the head part, as done inside `os.path.split`. -/
def rstripSlash (l : List Char) : List Char :=
  (l.reverse.dropWhile fun c => c == '/').reverse

/-- `os.path.split` (line 132 of the source), posix form: cut after the
last `'/'`; the head keeps its trailing slashes only when it consists of
slashes alone. -/
def splitPath (p : List Char) : List Char × List Char :=
  let r := p.reverse
  let tail := (r.takeWhile fun c => c != '/').reverse
  let head := (r.dropWhile fun c => c != '/').reverse
  if head ≠ [] ∧ ¬ (head.all fun c => c == '/') then (rstripSlash head, tail)
  else (head, tail)

/-- `os.path.splitext` (line 133 of the source) specialised to a basename
(the `tail` of `os.path.split`, which contains no separator): the
extension starts at the last dot, unless every character before that dot
is itself a dot, in which case there is no extension. -/
def splitextTail (t : List Char) : List Char × List Char :=
  let r := t.reverse
  let after := r.takeWhile fun c => c != '.'
  match r.dropWhile fun c => c != '.' with
  | [] => (t, [])
  | _ :: pre =>
    if pre.reverse.all fun c => c == '.' then (t, [])
    else (pre.reverse, '.' :: after.reverse)

/-- `os.path.join(head, x)` (line 134 of the source), posix form, for the
two-argument call of the source. -/
def joinPath (a b : List Char) : List Char :=
  if b.head? = some '/' then b
  else if a = [] ∨ a.getLast? = some '/' then a ++ b
  else a ++ '/' :: b

/-- The characters of `'.xlsx'`. -/
def dotXlsx : List Char := ['.', 'x', 'l', 's', 'x']

/-- `Logic._xlsx_path` (lines 119–134 of the source):
`head, tail = os.path.split(filepath)`;
`filename = os.path.splitext(tail)[0]`;
`return os.path.join(head, filename + '.xlsx')`. -/
def xlsxPath (p : List Char) : List Char :=
  let ht := splitPath p
  let filename := (splitextTail ht.2).1
  joinPath ht.1 (filename ++ dotXlsx)

/-- `Logic.transform` (lines 182–196 of the source): clean, then sample.
The spreadsheet writing is I/O and carries exactly the sampled rows. -/
def transform (lines : List (List Char)) (f : ℚ) (perm : List ℕ) :
    Option (List (List (List Char))) :=
  (cleanCloud lines).map fun data => pandasSample data f perm

theorem pySplitComma_ne_nil (l : List Char) : pySplitComma l ≠ [] := by
  cases l with
  | nil => simp [pySplitComma]
  | cons c cs =>
    simp only [pySplitComma]
    split
    · simp
    · split <;> simp

theorem cleanLine_none_iff {line : List Char} :
    cleanLine line = none ↔ (pySplitComma line).length ≤ 2 := by
  simp only [cleanLine]
  split
  next h => simp; omega
  next h => simp; omega

theorem cleanLine_length {line : List Char} {row : List (List Char)}
    (h : cleanLine line = some row) : row.length = (pySplitComma line).length := by
  simp only [cleanLine] at h
  split at h
  next hl =>
    cases h
    exact List.length_set ..
  next hl => exact absurd h (by simp)

theorem cleanLine_three_le {line : List Char} {row : List (List Char)}
    (h : cleanLine line = some row) : 3 ≤ row.length := by
  simp only [cleanLine] at h
  split at h
  next hl =>
    cases h
    rw [List.length_set]
    omega
  next hl => exact absurd h (by simp)

theorem cleanLine_field2 {line : List Char} {row : List (List Char)}
    (h : cleanLine line = some row) :
    ∃ piece ∈ pySplitComma line, row.get? 2 = some (removeCRLF piece) := by
  simp only [cleanLine] at h
  split at h
  next hl =>
    cases h
    refine ⟨(pySplitComma line).get ⟨2, hl⟩, List.get_mem (pySplitComma line) 2 hl, ?_⟩
    rw [List.get?_eq_getElem?]
    exact List.getElem?_set_eq_of_lt _ (by simpa using hl)
  next hl => exact absurd h (by simp)

theorem cleanCloud_cons_comment {line : List Char} {rest : List (List Char)}
    (h : line.head? = some '#') :
    cleanCloud (line :: rest) = cleanCloud rest := by
  cases line with
  | nil => simp at h
  | cons c cs =>
    simp only [List.head?_cons, Option.some.injEq] at h
    simp only [cleanCloud, if_pos h]

theorem cleanCloud_cons_data {line : List Char} {rest : List (List Char)}
    (h : ¬ line.head? = some '#') (hne : line ≠ []) :
    cleanCloud (line :: rest) =
      match cleanLine line, cleanCloud rest with
      | some row, some rows => some (row :: rows)
      | _, _ => none := by
  cases line with
  | nil => exact absurd rfl hne
  | cons c cs =>
    simp only [List.head?_cons, Option.some.injEq] at h
    simp only [cleanCloud, if_neg h]

theorem cleanCloud_filterMap {lines : List (List Char)}
    {rows : List (List (List Char))} (h : cleanCloud lines = some rows) :
    rows = (lines.filter fun l => !(l.head? == some '#')).filterMap cleanLine := by
  induction lines generalizing rows with
  | nil =>
    simp only [cleanCloud, Option.some.injEq] at h
    simp [← h]
  | cons line rest ih =>
    by_cases hc : line.head? = some '#'
    · rw [cleanCloud_cons_comment hc] at h
      rw [List.filter_cons, if_neg (by simp [hc])]
      exact ih h
    · have hne : line ≠ [] := by
        intro he
        subst he
        simp [cleanCloud] at h
      rw [cleanCloud_cons_data hc hne] at h
      rw [List.filter_cons, if_pos (by simpa using hc)]
      cases hl : cleanLine line with
      | none => rw [hl] at h; simp at h
      | some row =>
        rw [hl] at h
        cases hr : cleanCloud rest with
        | none => rw [hr] at h; simp at h
        | some rows₀ =>
          rw [hr] at h
          simp only [Option.some.injEq] at h
          rw [List.filterMap_cons, hl, ← h, ih hr]

theorem cleanCloud_rows_mem {lines : List (List Char)}
    {rows : List (List (List Char))} (h : cleanCloud lines = some rows)
    {row : List (List Char)} (hrow : row ∈ rows) :
    ∃ line ∈ lines, line.head? ≠ some '#' ∧ cleanLine line = some row := by
  rw [cleanCloud_filterMap h] at hrow
  rcases List.mem_filterMap.1 hrow with ⟨line, hline, hcl⟩
  rcases List.mem_filter.1 hline with ⟨hmem, hpred⟩
  exact ⟨line, hmem, by simpa using hpred, hcl⟩

theorem removeCRLF_of_no_cr {z : List Char} (h : ∀ c ∈ z, c ≠ '\r') :
    removeCRLF z = z := by
  induction z with
  | nil => rfl
  | cons a as ih =>
    cases as with
    | nil => rfl
    | cons b bs =>
      have ha : a ≠ '\r' := h a (List.mem_cons_self ..)
      rw [show removeCRLF (a :: b :: bs) =
            if a = '\r' ∧ b = '\n' then removeCRLF bs
            else a :: removeCRLF (b :: bs) from rfl]
      rw [if_neg fun hand => ha hand.1]
      rw [ih fun c hc => h c (List.mem_cons_of_mem _ hc)]

theorem removeCRLF_append_crlf {z : List Char} (h : ∀ c ∈ z, c ≠ '\r') :
    removeCRLF (z ++ ['\r', '\n']) = z := by
  induction z with
  | nil => rfl
  | cons a as ih =>
    cases as with
    | nil =>
      show removeCRLF (a :: '\r' :: ['\n']) = [a]
      rw [show removeCRLF (a :: '\r' :: ['\n']) =
            if a = '\r' ∧ '\r' = '\n' then removeCRLF ['\n']
            else a :: removeCRLF ('\r' :: ['\n']) from rfl]
      rw [if_neg fun hand => absurd hand.2 (by decide)]
      rfl
    | cons b bs =>
      have ha : a ≠ '\r' := h a (List.mem_cons_self ..)
      show removeCRLF (a :: b :: (bs ++ ['\r', '\n'])) = a :: b :: bs
      rw [show removeCRLF (a :: b :: (bs ++ ['\r', '\n'])) =
            if a = '\r' ∧ b = '\n' then removeCRLF (bs ++ ['\r', '\n'])
            else a :: removeCRLF (b :: (bs ++ ['\r', '\n'])) from rfl]
      rw [if_neg fun hand => ha hand.1]
      have ih' := ih fun c hc => h c (List.mem_cons_of_mem _ hc)
      rw [List.cons_append] at ih'
      rw [ih']

theorem pySplitComma_append_crlf :
    ∀ {m p : List Char}, p ∈ pySplitComma (m ++ ['\r', '\n']) →
      (∀ c ∈ p, c ∈ m) ∨ ∃ z, (∀ c ∈ z, c ∈ m) ∧ p = z ++ ['\r', '\n'] := by
  intro m
  induction m with
  | nil =>
    intro p hp
    rw [show pySplitComma ([] ++ ['\r', '\n']) = [['\r', '\n']] from rfl] at hp
    rcases List.mem_singleton.1 hp with rfl
    exact Or.inr ⟨[], by simp, rfl⟩
  | cons a as ih =>
    intro p hp
    by_cases hac : a = ','
    · subst hac
      rw [show pySplitComma ((',' :: as) ++ ['\r', '\n']) =
            [] :: pySplitComma (as ++ ['\r', '\n']) from rfl] at hp
      rcases List.mem_cons.1 hp with rfl | hmem
      · exact Or.inl (by simp)
      · rcases ih hmem with hl | ⟨z, hz, rfl⟩
        · exact Or.inl fun c hc => List.mem_cons_of_mem _ (hl c hc)
        · exact Or.inr ⟨z, fun c hc => List.mem_cons_of_mem _ (hz c hc), rfl⟩
    · obtain ⟨q, qs, hqs⟩ : ∃ q qs, pySplitComma (as ++ ['\r', '\n']) = q :: qs := by
        cases hh : pySplitComma (as ++ ['\r', '\n']) with
        | nil => exact absurd hh (pySplitComma_ne_nil _)
        | cons q qs => exact ⟨q, qs, rfl⟩
      have heq : pySplitComma ((a :: as) ++ ['\r', '\n']) = (a :: q) :: qs := by
        rw [show pySplitComma ((a :: as) ++ ['\r', '\n']) =
              if a = ',' then [] :: pySplitComma (as ++ ['\r', '\n'])
              else
                match pySplitComma (as ++ ['\r', '\n']) with
                | [] => [[a]]
                | p :: ps => (a :: p) :: ps from rfl]
        rw [if_neg hac, hqs]
      rw [heq] at hp
      rcases List.mem_cons.1 hp with rfl | hmem
      · rcases @ih q (by rw [hqs]; exact List.mem_cons_self ..) with hl | ⟨z, hz, rfl⟩
        · refine Or.inl ?_
          intro c hc
          rcases List.mem_cons.1 hc with rfl | hc
          · exact List.mem_cons_self ..
          · exact List.mem_cons_of_mem _ (hl c hc)
        · refine Or.inr ⟨a :: z, ?_, rfl⟩
          intro c hc
          rcases List.mem_cons.1 hc with rfl | hc
          · exact List.mem_cons_self ..
          · exact List.mem_cons_of_mem _ (hz c hc)
      · rcases @ih p (by rw [hqs]; exact List.mem_cons_of_mem _ hmem) with hl | ⟨z, hz, rfl⟩
        · exact Or.inl fun c hc => List.mem_cons_of_mem _ (hl c hc)
        · exact Or.inr ⟨z, fun c hc => List.mem_cons_of_mem _ (hz c hc), rfl⟩

theorem floor_natCast_add_half (n : ℕ) : ⌊(n : ℚ) + 1/2⌋ = n := by
  rw [Int.floor_eq_iff]
  constructor
  · push_cast
    linarith
  · push_cast
    linarith

theorem pyRound_natCast (n : ℕ) : pyRound n = n := by
  unfold pyRound
  rw [if_pos (by positivity), floor_natCast_add_half]

theorem pandasSampleCount_le {f : ℚ} (n : ℕ) (h0 : 0 ≤ f) (h1 : f ≤ 1) :
    pandasSampleCount f n ≤ n := by
  unfold pandasSampleCount pyRound
  rw [if_pos (mul_nonneg h0 (Nat.cast_nonneg n)), Int.toNat_le]
  calc ⌊f * n + 1/2⌋ ≤ ⌊(n : ℚ) + 1/2⌋ := by
        apply Int.floor_le_floor
        have hm : f * n ≤ 1 * n := mul_le_mul_of_nonneg_right h1 (Nat.cast_nonneg n)
        linarith
    _ = n := floor_natCast_add_half n

theorem pandasSampleCount_one (n : ℕ) : pandasSampleCount 1 n = n := by
  unfold pandasSampleCount
  rw [one_mul, pyRound_natCast]
  simp

theorem filterMap_length_all_some {α β : Type} (f : α → Option β) :
    ∀ l : List α, (∀ a ∈ l, (f a).isSome) → (l.filterMap f).length = l.length := by
  intro l
  induction l with
  | nil => simp
  | cons a as ih =>
    intro h
    have hs := h a (List.mem_cons_self ..)
    cases hfa : f a with
    | none =>
      rw [hfa] at hs
      simp at hs
    | some b =>
      rw [List.filterMap_cons, hfa]
      simp only [List.length_cons]
      rw [ih fun x hx => h x (List.mem_cons_of_mem _ hx)]

theorem filterMap_get?_range {α : Type} (l : List α) :
    (List.range l.length).filterMap (fun i => l.get? i) = l := by
  induction l with
  | nil => simp
  | cons a as ih =>
    rw [List.length_cons, List.range_succ_eq_map]
    simp only [List.filterMap_cons, List.get?_cons_zero]
    rw [List.filterMap_map]
    have hcomp : ((fun i => (a :: as).get? i) ∘ Nat.succ) = fun i => as.get? i :=
      funext fun i => rfl
    rw [hcomp, ih]

/-- C1: for every fraction f with 0 < f ≤ 1 and every cleaned dataset of N
rows, the sampling step produces an output whose row count equals
round(f × N) (Python-2 rounding, as pandas computes int(round(frac * N))),
for every enumeration order the RNG can produce. -/
theorem C1_sample_output_row_count (f : ℚ) (data : List (List (List Char)))
    (perm : List ℕ) (h0 : 0 < f) (h1 : f ≤ 1)
    (hperm : perm.Perm (List.range data.length)) :
    (pandasSample data f perm).length = (pyRound (f * data.length)).toNat := by
  have hall : ∀ i ∈ perm.take (pandasSampleCount f data.length),
      ((fun i => data.get? i) i).isSome := by
    intro i hi
    have hmem : i ∈ List.range data.length := hperm.subset (List.take_subset _ _ hi)
    have hlt : i < data.length := List.mem_range.1 hmem
    simp only [List.get?_eq_getElem?]
    simp [List.getElem?_eq_getElem hlt]
  unfold pandasSample
  rw [filterMap_length_all_some _ _ hall, List.length_take, hperm.length_eq,
    List.length_range]
  exact min_eq_left (pandasSampleCount_le data.length h0.le h1)

/-- C1 witness: with fraction 1 on a 2-row dataset and index order [1, 0],
the output has round(1 × 2) = 2 rows. -/
theorem C1_witness_sample_count :
    (pandasSample [[['1'], ['2'], ['3']], [['4'], ['5'], ['6']]] 1 [1, 0]).length = 2 := by
  have h := C1_sample_output_row_count 1 [[['1'], ['2'], ['3']], [['4'], ['5'], ['6']]]
    [1, 0] one_pos le_rfl (by decide)
  rw [h]
  rw [show ([[['1'], ['2'], ['3']], [['4'], ['5'], ['6']]] :
    List (List (List Char))).length = 2 from rfl]
  rw [one_mul, pyRound_natCast]
  rfl

/-- C2 counterexample: a non-comment line with a Unix line ending leaves a
newline in the third field of the cleaned row, because the code removes
only the two-character sequence CR LF. -/
theorem C2_counterexample_lf_line :
    cleanCloud (pyLines ['1', ',', '2', ',', '3', '\n']) =
        some [[['1'], ['2'], ['3', '\n']]] ∧
      '\n' ∈ (['3', '\n'] : List Char) := by decide

/-- C2 (amended): for every input whose lines all end with CR LF and
contain no other CR or LF characters, the third field of every cleaned
row contains no CR and no LF. -/
theorem C2_third_field_free_of_crlf (lines : List (List Char))
    (hcrlf : ∀ l ∈ lines, ∃ m, l = m ++ ['\r', '\n'] ∧ ∀ c ∈ m, c ≠ '\r' ∧ c ≠ '\n')
    (rows : List (List (List Char))) (h : cleanCloud lines = some rows) :
    ∀ row ∈ rows, ∀ fld, row.get? 2 = some fld → ∀ c ∈ fld, c ≠ '\r' ∧ c ≠ '\n' := by
  intro row hrow fld hfld c hc
  rcases cleanCloud_rows_mem h hrow with ⟨line, hline, -, hcl⟩
  rcases hcrlf line hline with ⟨m, rfl, hm⟩
  rcases cleanLine_field2 hcl with ⟨piece, hpiece, hget⟩
  rw [hfld] at hget
  have hfe : fld = removeCRLF piece := Option.some_inj.1 hget
  subst hfe
  rcases pySplitComma_append_crlf hpiece with hin | ⟨z, hz, rfl⟩
  · rw [removeCRLF_of_no_cr fun d hd => (hm d (hin d hd)).1] at hc
    exact hm c (hin c hc)
  · rw [removeCRLF_append_crlf fun d hd => (hm d (hz d hd)).1] at hc
    exact hm c (hz c hc)

/-- C2 witness: on the CRLF-terminated line 1,2,3 the cleaned third field
is the single character 3, free of CR and LF. -/
theorem C2_witness_third_field :
    cleanCloud [['1', ',', '2', ',', '3', '\r', '\n']] = some [[['1'], ['2'], ['3']]] ∧
      ('3' ≠ '\r' ∧ '3' ≠ '\n') :=
  ⟨by decide,
    C2_third_field_free_of_crlf [['1', ',', '2', ',', '3', '\r', '\n']]
      (fun l hl => by
        rcases List.mem_singleton.1 hl with rfl
        exact ⟨['1', ',', '2', ',', '3'], rfl, by decide⟩)
      [[['1'], ['2'], ['3']]] (by decide) [['1'], ['2'], ['3']] (by decide)
      ['3'] (by decide) '3' (by decide)⟩

/-- C3: lines whose first character is '#' contribute nothing to the
cleaned dataset: cleaning a file equals cleaning the file with those
lines deleted whole, untransformed. -/
theorem C3_comment_lines_contribute_nothing (lines : List (List Char)) :
    cleanCloud lines = cleanCloud (lines.filter fun l => !(l.head? == some '#')) := by
  induction lines with
  | nil => rfl
  | cons line rest ih =>
    by_cases hc : line.head? = some '#'
    · rw [cleanCloud_cons_comment hc, List.filter_cons, if_neg (by simp [hc]), ih]
    · rw [List.filter_cons, if_pos (by simp [hc])]
      cases line with
      | nil => simp [cleanCloud]
      | cons c cs =>
        rw [cleanCloud_cons_data hc (by simp), cleanCloud_cons_data hc (by simp), ih]

/-- C4: the subsample validator returns the parsed value exactly when
parsing succeeds and the value lies in (0, 1]; in every other case
(parse failure or out of range) it returns None. -/
theorem C4_validate_subsample_spec (parse : List Char → Option ℚ) (x : List Char)
    (r : ℚ) :
    validate_subsample parse x = some r ↔ parse x = some r ∧ 0 < r ∧ r ≤ 1 := by
  cases hp : parse x with
  | none => simp [validate_subsample, hp]
  | some v =>
    simp only [validate_subsample, hp]
    by_cases hv : 0 < v ∧ v ≤ 1
    · rw [if_pos hv]
      constructor
      · intro hsome
        rcases Option.some_inj.1 hsome with rfl
        exact ⟨rfl, hv.1, hv.2⟩
      · rintro ⟨hsome, -, -⟩
        exact hsome
    · rw [if_neg hv]
      constructor
      · intro hnone
        exact absurd hnone (by simp)
      · rintro ⟨hsome, h1, h2⟩
        rcases Option.some_inj.1 hsome with rfl
        exact absurd ⟨h1, h2⟩ hv

/-- C5 counterexample: a non-comment line with four comma-separated fields
yields a cleaned row with four fields, not three. -/
theorem C5_counterexample_four_fields :
    cleanCloud [['1', ',', '2', ',', '3', ',', '4']] =
        some [[['1'], ['2'], ['3'], ['4']]] ∧
      ([['1'], ['2'], ['3'], ['4']] : List (List Char)).length ≠ 3 := by decide

/-- C5 (amended): every row of the cleaned dataset has at least 3 fields
(exactly 3 only when the source line has exactly 3 comma-separated
fields). -/
theorem C5_rows_at_least_three_fields (lines : List (List Char))
    (rows : List (List (List Char))) (h : cleanCloud lines = some rows) :
    ∀ row ∈ rows, 3 ≤ row.length := fun _ hrow => by
  rcases cleanCloud_rows_mem h hrow with ⟨line, -, -, hcl⟩
  exact cleanLine_three_le hcl

/-- C5 witness: the row cleaned from the line 1,2,3 has at least 3 fields. -/
theorem C5_witness_three_fields :
    3 ≤ ([['1'], ['2'], ['3']] : List (List Char)).length :=
  C5_rows_at_least_three_fields [['1', ',', '2', ',', '3']] [[['1'], ['2'], ['3']]]
    (by decide) [['1'], ['2'], ['3']] (by decide)

/-- C6: an input containing a non-comment line with fewer than 3
comma-separated fields makes the cleaner fail: the IndexError propagates
and the whole run produces no result. -/
theorem C6_short_row_error_propagates (lines : List (List Char))
    (hbad : ∃ l ∈ lines, l.head? ≠ some '#' ∧ (pySplitComma l).length < 3) :
    cleanCloud lines = none := by
  induction lines with
  | nil => simp at hbad
  | cons line rest ih =>
    rcases hbad with ⟨l, hl, hnc, hlen⟩
    rcases List.mem_cons.1 hl with rfl | hmem
    · cases l with
      | nil => simp [cleanCloud]
      | cons c cs =>
        rw [cleanCloud_cons_data hnc (by simp)]
        rw [cleanLine_none_iff.2 (by omega)]
    · have hrest := ih ⟨l, hmem, hnc, hlen⟩
      cases line with
      | nil => simp [cleanCloud]
      | cons c cs =>
        by_cases hch : c = '#'
        · rw [cleanCloud_cons_comment (by simp [hch]), hrest]
        · rw [cleanCloud_cons_data (by simp [hch]) (by simp), hrest]
          cases cleanLine (c :: cs) <;> rfl

/-- C6 witness: the single line 1,2 (two fields, non-comment) makes the
cleaner raise. -/
theorem C6_witness_short_row : cleanCloud [['1', ',', '2']] = none :=
  C6_short_row_error_propagates [['1', ',', '2']] (by decide)

/-- C7: at fraction 1, the sampled output of a cleaned dataset of N rows
has exactly N rows, and, as a set, equals the set of dataset rows
(order not guaranteed). -/
theorem C7_full_fraction_preserves_rows (data : List (List (List Char)))
    (perm : List ℕ) (hperm : perm.Perm (List.range data.length)) :
    (pandasSample data 1 perm).length = data.length ∧
      ∀ x, x ∈ pandasSample data 1 perm ↔ x ∈ data := by
  have hp : (pandasSample data 1 perm).Perm data := by
    unfold pandasSample
    rw [pandasSampleCount_one]
    rw [List.take_of_length_le (le_of_eq (hperm.length_eq.trans (List.length_range _)))]
    have h3 := hperm.filterMap fun i => data.get? i
    rw [filterMap_get?_range] at h3
    exact h3
  exact ⟨hp.length_eq, fun x => hp.mem_iff⟩

/-- C7 witness: fraction 1 on a 2-row dataset with index order [1, 0]. -/
theorem C7_witness_full_fraction :
    (pandasSample [[['1'], ['2'], ['3']], [['4'], ['5'], ['6']]] 1 [1, 0]).length =
        ([[['1'], ['2'], ['3']], [['4'], ['5'], ['6']]] :
          List (List (List Char))).length ∧
      ∀ x, x ∈ pandasSample [[['1'], ['2'], ['3']], [['4'], ['5'], ['6']]] 1 [1, 0] ↔
        x ∈ [[['1'], ['2'], ['3']], [['4'], ['5'], ['6']]] :=
  C7_full_fraction_preserves_rows [[['1'], ['2'], ['3']], [['4'], ['5'], ['6']]]
    [1, 0] (by decide)

/-- C8: the cleaned dataset lists the per-line cleanings of the
non-comment lines in input order. -/
theorem C8_rows_follow_input_order (lines : List (List Char))
    (rows : List (List (List Char))) (h : cleanCloud lines = some rows) :
    rows = (lines.filter fun l => !(l.head? == some '#')).filterMap cleanLine :=
  cleanCloud_filterMap h

/-- C8 witness: a comment line followed by a data line cleans, in order,
to the single cleaned data row. -/
theorem C8_witness_input_order :
    ([[['1'], ['2'], ['3']]] : List (List (List Char))) =
      (([['#', 'x'], ['1', ',', '2', ',', '3']] : List (List Char)).filter
        fun l => !(l.head? == some '#')).filterMap cleanLine :=
  C8_rows_follow_input_order [['#', 'x'], ['1', ',', '2', ',', '3']]
    [[['1'], ['2'], ['3']]] (by decide)

/-- C10: for every accepted fraction, sampling is without replacement:
every output row is a dataset row, and no row occurs more often in the
output than in the dataset. -/
theorem C10_sample_without_replacement (f : ℚ) (data : List (List (List Char)))
    (perm : List ℕ) (_h0 : 0 < f) (_h1 : f ≤ 1)
    (hperm : perm.Perm (List.range data.length)) :
    (∀ x, x ∈ pandasSample data f perm → x ∈ data) ∧
      ∀ x, (pandasSample data f perm).count x ≤ data.count x := by
  have hnd : (perm.take (pandasSampleCount f data.length)).Nodup :=
    (List.take_sublist _ _).nodup (hperm.nodup_iff.mpr (List.nodup_range _))
  have hss : perm.take (pandasSampleCount f data.length) ⊆ List.range data.length :=
    fun i hi => hperm.subset (List.take_subset _ _ hi)
  rcases hnd.subperm hss with ⟨l, hl, hsl⟩
  have hperm2 : (l.filterMap fun i => data.get? i).Perm (pandasSample data f perm) :=
    hl.filterMap _
  have hsub2 : (l.filterMap fun i => data.get? i).Sublist data := by
    have h4 := hsl.filterMap fun i => data.get? i
    rw [filterMap_get?_range] at h4
    exact h4
  constructor
  · intro x hx
    exact hsub2.subset (hperm2.mem_iff.mpr hx)
  · intro x
    calc (pandasSample data f perm).count x
        = (l.filterMap fun i => data.get? i).count x :=
          (hperm2.countP_eq (fun r => r == x)).symm
      _ ≤ data.count x := hsub2.count_le x

/-- C10 witness: fraction 1 on a 2-row dataset with index order [1, 0]. -/
theorem C10_witness_without_replacement :
    (∀ x, x ∈ pandasSample [[['1'], ['2'], ['3']], [['4'], ['5'], ['6']]] 1 [1, 0] →
        x ∈ [[['1'], ['2'], ['3']], [['4'], ['5'], ['6']]]) ∧
      ∀ x, (pandasSample [[['1'], ['2'], ['3']], [['4'], ['5'], ['6']]] 1 [1, 0]).count x ≤
        ([[['1'], ['2'], ['3']], [['4'], ['5'], ['6']]] :
          List (List (List Char))).count x :=
  C10_sample_without_replacement 1 [[['1'], ['2'], ['3']], [['4'], ['5'], ['6']]]
    [1, 0] one_pos le_rfl (by decide)

theorem takeWhile_of_all {α : Type} (p : α → Bool) :
    ∀ l : List α, (∀ x ∈ l, p x = true) → l.takeWhile p = l := by
  intro l
  induction l with
  | nil => intro _; rfl
  | cons a as ih =>
    intro h
    rw [List.takeWhile_cons, if_pos (h a (List.mem_cons_self ..))]
    rw [ih fun x hx => h x (List.mem_cons_of_mem _ hx)]

theorem dropWhile_of_all {α : Type} (p : α → Bool) :
    ∀ l : List α, (∀ x ∈ l, p x = true) → l.dropWhile p = [] := by
  intro l
  induction l with
  | nil => intro _; rfl
  | cons a as ih =>
    intro h
    rw [List.dropWhile_cons, if_pos (h a (List.mem_cons_self ..))]
    exact ih fun x hx => h x (List.mem_cons_of_mem _ hx)

theorem takeWhile_append_of_all {α : Type} (p : α → Bool) :
    ∀ xs ys : List α, (∀ x ∈ xs, p x = true) →
      (xs ++ ys).takeWhile p = xs ++ ys.takeWhile p := by
  intro xs ys
  induction xs with
  | nil => intro _; rfl
  | cons a as ih =>
    intro h
    rw [List.cons_append, List.takeWhile_cons, if_pos (h a (List.mem_cons_self ..))]
    rw [ih fun x hx => h x (List.mem_cons_of_mem _ hx)]
    rfl

theorem dropWhile_append_of_all {α : Type} (p : α → Bool) :
    ∀ xs ys : List α, (∀ x ∈ xs, p x = true) →
      (xs ++ ys).dropWhile p = ys.dropWhile p := by
  intro xs ys
  induction xs with
  | nil => intro _; rfl
  | cons a as ih =>
    intro h
    rw [List.cons_append, List.dropWhile_cons, if_pos (h a (List.mem_cons_self ..))]
    exact ih fun x hx => h x (List.mem_cons_of_mem _ hx)

theorem dropWhile_head_false {α : Type} (p : α → Bool) :
    ∀ (l : List α) {a : α} {as : List α}, l.dropWhile p = a :: as → p a = false := by
  intro l
  induction l with
  | nil =>
    intro a as h
    simp at h
  | cons b bs ih =>
    intro a as h
    rw [List.dropWhile_cons] at h
    split at h
    · exact ih h
    · next hpb =>
      cases h
      simpa using hpb

theorem getLast?_of_all_slash {h : List Char} (hne : h ≠ [])
    (hall : ∀ c ∈ h, c = '/') : h.getLast? = some '/' := by
  rw [← List.head?_reverse]
  cases hr : h.reverse with
  | nil => exact absurd (by simpa using hr) hne
  | cons a as =>
    have ha : a ∈ h := List.mem_reverse.1 (by rw [hr]; exact List.mem_cons_self ..)
    simp [hall a ha]

theorem rstripSlash_spec (l : List Char) :
    rstripSlash l = [] ∨ (rstripSlash l).getLast? ≠ some '/' := by
  unfold rstripSlash
  cases hd : l.reverse.dropWhile fun c => c == '/' with
  | nil => exact Or.inl (by simp)
  | cons a as =>
    refine Or.inr ?_
    rw [List.getLast?_reverse]
    have ha := dropWhile_head_false (fun c => c == '/') l.reverse hd
    simp only [List.head?_cons, Option.some.injEq]
    simpa using ha

theorem splitPath_tail_no_slash (p : List Char) :
    ∀ c ∈ (splitPath p).2, c ≠ '/' := by
  intro c hc
  simp only [splitPath] at hc
  split at hc <;>
  · rw [List.mem_reverse] at hc
    have := List.mem_takeWhile_imp hc
    simpa using this

theorem splitPath_head_cases (p : List Char) :
    (splitPath p).1 = [] ∨
      ((splitPath p).1 ≠ [] ∧ ∀ c ∈ (splitPath p).1, c = '/') ∨
      ((splitPath p).1 ≠ [] ∧ (splitPath p).1.getLast? ≠ some '/') := by
  simp only [splitPath]
  split
  next hcond =>
    rcases rstripSlash_spec ((p.reverse.dropWhile fun c => c != '/').reverse) with he | hl
    · exact Or.inl he
    · by_cases hne : rstripSlash ((p.reverse.dropWhile fun c => c != '/').reverse) = []
      · exact Or.inl hne
      · exact Or.inr (Or.inr ⟨hne, hl⟩)
  next hcond =>
    by_cases hne : (p.reverse.dropWhile fun c => c != '/').reverse = []
    · exact Or.inl hne
    · refine Or.inr (Or.inl ⟨hne, ?_⟩)
      have hall : ((p.reverse.dropWhile fun c => c != '/').reverse.all
          fun c => c == '/') = true := by
        by_contra hno
        exact hcond ⟨hne, fun hx => hno hx⟩
      intro c hc
      have := List.all_eq_true.1 hall c hc
      simpa using this

theorem splitextTail_root_subset (t : List Char) :
    ∀ c ∈ (splitextTail t).1, c ∈ t := by
  simp only [splitextTail]
  split
  · intro c hc
    exact hc
  next a pre hd =>
    split
    · intro c hc
      exact hc
    · intro c hc
      rw [List.mem_reverse] at hc
      have hmem : c ∈ t.reverse :=
        (List.dropWhile_sublist _).subset (by rw [hd]; exact List.mem_cons_of_mem _ hc)
      exact List.mem_reverse.1 hmem

theorem takeWhile_ne_slash_cons (l : List Char) :
    ('/' :: l).takeWhile (fun x => x != '/') = [] := by
  simp [List.takeWhile_cons]

theorem dropWhile_ne_slash_cons (l : List Char) :
    ('/' :: l).dropWhile (fun x => x != '/') = '/' :: l := by
  simp [List.dropWhile_cons]

theorem dropWhile_eq_slash_cons (l : List Char) :
    ('/' :: l).dropWhile (fun x => x == '/') = l.dropWhile (fun x => x == '/') := by
  simp [List.dropWhile_cons]

theorem dropWhile_eq_slash_cons_ne {a : Char} (l : List Char) (ha : a ≠ '/') :
    (a :: l).dropWhile (fun x => x == '/') = a :: l := by
  simp [List.dropWhile_cons, ha]

theorem splitPath_joinPath (h t : List Char)
    (hcase : h = [] ∨ (h ≠ [] ∧ ∀ c ∈ h, c = '/') ∨ (h ≠ [] ∧ h.getLast? ≠ some '/'))
    (htne : t ≠ []) (hts : ∀ c ∈ t, c ≠ '/') :
    splitPath (joinPath h t) = (h, t) := by
  have hthead : ¬ t.head? = some '/' := by
    cases t with
    | nil => simp
    | cons a as => simpa using hts a (List.mem_cons_self ..)
  have htall : ∀ c ∈ t.reverse, (c != '/') = true := by
    intro c hc
    simpa using hts c (List.mem_reverse.1 hc)
  rcases hcase with rfl | ⟨hne, hall⟩ | ⟨hne, hlast⟩
  · rw [joinPath, if_neg hthead, if_pos (Or.inl rfl), List.nil_append]
    simp only [splitPath]
    rw [takeWhile_of_all _ _ htall, dropWhile_of_all _ _ htall]
    rw [List.reverse_reverse]
    rw [if_neg (by simp)]
    rfl
  · have hjoin : joinPath h t = h ++ t := by
      rw [joinPath, if_neg hthead, if_pos (Or.inr (getLast?_of_all_slash hne hall))]
    rw [hjoin]
    obtain ⟨a, as, hrev⟩ : ∃ a as, h.reverse = a :: as := by
      cases hr : h.reverse with
      | nil => exact absurd (by simpa using hr) hne
      | cons a as => exact ⟨a, as, rfl⟩
    have ha : a = '/' := hall a (List.mem_reverse.1 (by rw [hrev]; exact List.mem_cons_self ..))
    simp only [splitPath]
    rw [List.reverse_append]
    rw [takeWhile_append_of_all _ _ _ htall, dropWhile_append_of_all _ _ _ htall]
    subst ha
    rw [hrev]
    rw [takeWhile_ne_slash_cons, dropWhile_ne_slash_cons]
    rw [List.append_nil, List.reverse_reverse, ← hrev, List.reverse_reverse]
    rw [if_neg fun hcond => hcond.2 (by
      rw [List.all_eq_true]
      intro x hx
      simp [hall x hx])]
  · have hjoin : joinPath h t = h ++ '/' :: t := by
      rw [joinPath, if_neg hthead, if_neg fun hor => hor.elim (fun he => hne he) hlast]
    rw [hjoin]
    simp only [splitPath]
    rw [show (h ++ '/' :: t).reverse = t.reverse ++ '/' :: h.reverse from by
      rw [List.reverse_append, List.reverse_cons, List.append_assoc]
      rfl]
    rw [takeWhile_append_of_all _ _ _ htall, dropWhile_append_of_all _ _ _ htall]
    rw [takeWhile_ne_slash_cons, dropWhile_ne_slash_cons]
    rw [List.append_nil, List.reverse_reverse]
    rw [show ('/' :: h.reverse).reverse = h ++ ['/'] from by
      rw [List.reverse_cons, List.reverse_reverse]]
    have hnall : ¬ ((h ++ ['/']).all fun c => c == '/') = true := by
      intro hab
      refine hlast (getLast?_of_all_slash hne fun c hc => ?_)
      have := List.all_eq_true.1 hab c (List.mem_append_left _ hc)
      simpa using this
    have hcond : (h ++ ['/']) ≠ [] ∧ ¬ ((h ++ ['/']).all fun c => c == '/') = true :=
      ⟨by simp, hnall⟩
    rw [if_pos hcond]
    have hrs : rstripSlash (h ++ ['/']) = h := by
      unfold rstripSlash
      rw [show (h ++ ['/']).reverse = '/' :: h.reverse from by
        rw [List.reverse_append]
        rfl]
      rw [dropWhile_eq_slash_cons]
      cases hr : h.reverse with
      | nil =>
        have : h = [] := by simpa using hr
        subst this
        rfl
      | cons a as =>
        have haneq : a ≠ '/' := by
          intro haeq
          refine hlast ?_
          rw [← List.head?_reverse, hr, haeq]
          rfl
        rw [dropWhile_eq_slash_cons_ne _ haneq, ← hr, List.reverse_reverse]
    rw [hrs]

/-- C9: the output path equals the input path with directory part and
base-name stem unchanged and the extension replaced by .xlsx: splitting
the output path at the last separator yields the input's directory part
and the input's stem followed by .xlsx. -/
theorem C9_output_path (p : List Char) :
    splitPath (xlsxPath p) =
      ((splitPath p).1, (splitextTail (splitPath p).2).1 ++ dotXlsx) := by
  have htail := splitPath_tail_no_slash p
  have hstem : ∀ c ∈ (splitextTail (splitPath p).2).1, c ≠ '/' :=
    fun c hc => htail c (splitextTail_root_subset _ c hc)
  have ht'ne : (splitextTail (splitPath p).2).1 ++ dotXlsx ≠ [] := by simp [dotXlsx]
  have ht's : ∀ c ∈ (splitextTail (splitPath p).2).1 ++ dotXlsx, c ≠ '/' := by
    intro c hc
    rcases List.mem_append.1 hc with hm | hm
    · exact hstem c hm
    · exact (by decide : ∀ x ∈ dotXlsx, x ≠ '/') c hm
  rw [show xlsxPath p =
    joinPath (splitPath p).1 ((splitextTail (splitPath p).2).1 ++ dotXlsx) from rfl]
  exact splitPath_joinPath _ _ (splitPath_head_cases p) ht'ne ht's

example : pySplitComma ['1', ',', '2', ',', '3'] = [['1'], ['2'], ['3']] := by decide

example : cleanCloud [['1', ',', '2', ',', '3', '\r', '\n']] =
    some [[['1'], ['2'], ['3']]] := by decide

example : cleanCloud (pyLines ['1', ',', '2', ',', '3', '\n']) =
    some [[['1'], ['2'], ['3', '\n']]] := by decide

example : cleanCloud [['#', 'x'], ['1', ',', '2', ',', '3']] =
    some [[['1'], ['2'], ['3']]] := by decide

example : cleanCloud [['1', ',', '2']] = none := by decide

example : pandasSampleCount (1/2) 5 = 3 := by
  norm_num [pandasSampleCount, pyRound]
  rfl

example : pandasSampleCount 1 7 = 7 := by
  norm_num [pandasSampleCount, pyRound]
  rfl

example : xlsxPath ['a', '/', 'b', '.', 't', 'x', 't'] =
    ['a', '/', 'b', '.', 'x', 'l', 's', 'x'] := by decide

end PCT
